import Mathlib

/-!
# A verification model of the fluxus stream-processing engine

This file is a shallow embedding, in Lean 4, of the parts of the
`lispking/fluxus` repository that the specification talks about:

* the record / error data model (`fluxus-utils/src/models.rs`),
* window types and window-key computation (`fluxus-core/src/window.rs`),
* the keyed state backend (`fluxus-runtime/src/state.rs`),
* the windowed aggregator and the window-any operator
  (`fluxus-api/src/operators/window_aggregator.rs`,
  `fluxus-transformers/src/operator/window_match.rs`),
* the `top_k` combinator (`fluxus-api/src/stream/windowed_stream.rs`),
* the fused transform sources
  (`fluxus-transformers/src/transform_source.rs`,
  `fluxus-transformers/src/transform_source_with_operator.rs`),
* the `DataStream::sink` driver (`fluxus-api/src/stream/datastream.rs`),
* retry strategies and the error handler
  (`fluxus-core/src/error_handling/{retry_strategy.rs,mod.rs}`),
* the backpressure controller (`fluxus-core/src/error_handling/backpressure.rs`),
* the linear pipeline driver `Pipeline::execute`
  (`fluxus-core/src/pipeline/processor.rs`).

Modelling conventions:

* `i64` timestamps and window starts are `Int`; the `as u64` cast is the
  explicit reduction `· % 2 ^ 64` followed by `Int.toNat`.
* Rust `i64` division (`/`, truncation toward zero) is `Int.tdiv`.
* `std::time::Duration` values are carried as their millisecond count; the
  floating-point delay computation of the exponential backoff strategy is
  carried over the rationals (only its `isSome`-ness steers control flow).
* `HashMap` keyed state is modelled as a function to `Option`; trait-object
  operators are modelled by their `process` functions (pure step functions,
  with operator-local state threaded explicitly where an operator has state).
* Async execution is sequential in the embedded drivers, matching the
  single-task "linear" mode; sources are modelled as the list of outcomes
  their successive `next()` calls produce (list exhausted = `Ok(None)`
  forever); sinks and sleeps are recorded in an explicit event trace.
-/

namespace Fluxus

/-- `Record<T>` (`fluxus-utils/src/models.rs`): payload plus event-time
timestamp in milliseconds (an `i64`, modelled as `Int`). -/
structure Record (α : Type) where
  data : α
  timestamp : Int
  deriving Repr, DecidableEq

/-- `StreamError` (`fluxus-utils/src/models.rs`). Error payloads are
modelled as strings; `Wait` carries a `u64` millisecond count. -/
inductive StreamError where
  | ioError (msg : String)
  | serialization (msg : String)
  | config (msg : String)
  | runtime (msg : String)
  | eof
  | wait (ms : Nat)
  deriving Repr, DecidableEq

/-- `StreamResult<T> = Result<T, StreamError>`. -/
abbrev StreamResult (α : Type) := Except StreamError α

/-- `WindowType` (`fluxus-core/src/window.rs`); each `Duration` field is
its millisecond count. -/
inductive WindowType where
  | tumbling (size : Nat)
  | sliding (size slide : Nat)
  | session (gap : Nat)
  | global
  deriving Repr, DecidableEq

/-- `WindowConfig` (`fluxus-core/src/window.rs`), durations in ms. -/
structure WindowConfig where
  window_type : WindowType
  allow_lateness : Nat := 0
  watermark_delay : Nat := 0
  deriving Repr, DecidableEq

/-- The Rust iterator `(a..=b).step_by(s)` over `i64`, for a positive step:
`a, a + s, a + 2*s, …` while `≤ b`. (`step_by(0)` panics in Rust; the
embedding returns `[]`, a case never reached by the theorems below.) -/
def stepBy (a b : Int) (s : Nat) : List Int :=
  if 0 < s ∧ a ≤ b then
    (List.range ((b - a).toNat / s + 1)).map (fun i => a + ((s * i : Nat) : Int))
  else []

/-- `WindowType::get_common_windows` (`fluxus-core/src/window.rs`, lines
78–103). Rust `i64` division truncates toward zero, hence `Int.tdiv`. -/
def WindowType.getCommonWindows : WindowType → Int → List Int
  | .tumbling size, ts =>
    [(Int.tdiv ts size) * size]
  | .sliding size slide, ts =>
    let sizeMs : Int := size
    let slideMs : Int := slide
    let earliest := (Int.tdiv (ts - sizeMs) slideMs) * slideMs
    let latest := (Int.tdiv ts slideMs) * slideMs
    (stepBy earliest latest slide).filter (fun start => ts - start < sizeMs)
  | .session gap, ts =>
    [Int.tdiv ts gap]
  | .global, _ =>
    [0]

/-- `WindowType::get_affected_windows` (`fluxus-core/src/window.rs`). -/
def WindowType.getAffectedWindows (wt : WindowType) (ts : Int) : List Int :=
  wt.getCommonWindows ts

/-- `WindowType::get_window_keys` (`fluxus-core/src/window.rs`, lines
109–114): each `i64` window start is cast `as u64`, i.e. reduced mod
`2 ^ 64` into a natural number. -/
def WindowType.getWindowKeys (wt : WindowType) (ts : Int) : List Nat :=
  (wt.getCommonWindows ts).map (fun w => (w % (2 ^ 64 : Int)).toNat)

/-- Spec-side definition (from the specification text, for comparison with
the code): the tumbling key `floor(ts/size)*size`. -/
def specTumblingKeys (size : Nat) (ts : Int) : List Int :=
  [Int.fdiv ts size * size]

/-- Spec-side definition: the ascending list of the sliding-window starts
`{ w | w = k*slide, ts - size < w ≤ size intervals }`, i.e. all multiples
`w` of `slide` with `ts - size < w ≤ ts`, in ascending order. -/
def specSlidingKeys (size slide : Nat) (ts : Int) : List Int :=
  let kmin := Int.fdiv (ts - size) slide + 1
  let kmax := Int.fdiv ts slide
  (List.range (kmax - kmin + 1).toNat).map
    (fun (i : Nat) => (kmin + (i : Int)) * slide)

/-- Spec-side definition: the session key `floor(ts/gap)`. -/
def specSessionKeys (gap : Nat) (ts : Int) : List Int :=
  [Int.fdiv ts gap]

/-- Spec-side definition: the global window key set `{0}`. -/
def specGlobalKeys : List Int := [0]

/-- `KeyedStateBackend<K, V>` (`fluxus-runtime/src/state.rs`): the inner
`HashMap<K, V>` is modelled as a function `K → Option V`. -/
def KeyedStateBackend (K V : Type) := K → Option V

/-- `KeyedStateBackend::new`: the empty map. -/
def KeyedStateBackend.new (K V : Type) : KeyedStateBackend K V := fun _ => none

/-- `KeyedStateBackend::get`: reads return (a clone of) the stored value. -/
def KeyedStateBackend.get {K V : Type} (s : KeyedStateBackend K V) (k : K) :
    Option V := s k

/-- `KeyedStateBackend::set`: `HashMap::insert`, replacing the value. -/
def KeyedStateBackend.set {K V : Type} [DecidableEq K]
    (s : KeyedStateBackend K V) (k : K) (v : V) : KeyedStateBackend K V :=
  fun q => if q = k then some v else s q

/-- Applying a sequence of `set` operations in order. -/
def KeyedStateBackend.applySets {K V : Type} [DecidableEq K]
    (s : KeyedStateBackend K V) (ops : List (K × V)) : KeyedStateBackend K V :=
  ops.foldl (fun s kv => s.set kv.1 kv.2) s

/-- `WindowAggregator::process`
(`fluxus-api/src/operators/window_aggregator.rs`, lines 45–63): for each
window key of the record timestamp, read the current accumulator (`init`
if absent), fold the payload in, store the result, and push an output
record carrying the new accumulator at the input timestamp. -/
def WindowAggregator.process {T A : Type} (cfg : WindowConfig) (init : A)
    (f : A → T → A) (st : KeyedStateBackend Nat A) (r : Record T) :
    KeyedStateBackend Nat A × List (Record A) :=
  (cfg.window_type.getWindowKeys r.timestamp).foldl
    (fun acc key =>
      let current := (acc.1.get key).getD init
      let newValue := f current r.data
      (acc.1.set key newValue, acc.2 ++ [⟨newValue, r.timestamp⟩]))
    (st, [])

/-- `WindowAnyOperator::process_window`
(`fluxus-transformers/src/operator/window_match.rs`, lines 36–41):
`records.first().map(|first| any(p) over records @ first.timestamp)`. -/
def WindowAnyOperator.processWindow {T : Type} (p : T → Bool)
    (records : List (Record T)) : Option (Record Bool) :=
  records.head?.map (fun first =>
    ⟨records.any (fun rec => p rec.data), first.timestamp⟩)

/-- `WindowAnyOperator::process`
(`fluxus-transformers/src/operator/window_match.rs`, lines 50–69), with
each emitted output paired with the window key it was computed for (the
code pushes the outputs in the key order of `get_affected_windows`; the
bare output list is the `Prod.snd` projection of this list). The buffer
`HashMap<i64, Vec<Record<T>>>` is a function `Int → List (Record T)`. -/
def WindowAnyOperator.processPairs {T : Type} (p : T → Bool)
    (cfg : WindowConfig) (buffer : Int → List (Record T)) (r : Record T) :
    (Int → List (Record T)) × List (Int × Record Bool) :=
  (cfg.window_type.getAffectedWindows r.timestamp).foldl
    (fun acc key =>
      let records := acc.1 key ++ [r]
      let buf := fun q => if q = key then records else acc.1 q
      match WindowAnyOperator.processWindow p records with
      | none => (buf, acc.2)
      | some result => (buf, acc.2 ++ [(key, result)]))
    (buffer, [])

/-- Feeding a list of records through `WindowAnyOperator::process` from a
given buffer state, concatenating all (window key, output) pairs. -/
def WindowAnyOperator.run {T : Type} (p : T → Bool) (cfg : WindowConfig) :
    (Int → List (Record T)) → List (Record T) → List (Int × Record Bool)
  | _, [] => []
  | buffer, r :: rs =>
    let step := WindowAnyOperator.processPairs p cfg buffer r
    step.2 ++ WindowAnyOperator.run p cfg step.1 rs

/-- The sequence of boolean outputs the window-any operator emits for one
window key `w` while processing `rs` from the empty buffer. -/
def WindowAnyOperator.outputsFor {T : Type} (p : T → Bool)
    (cfg : WindowConfig) (rs : List (Record T)) (w : Int) : List Bool :=
  (WindowAnyOperator.run p cfg (fun _ => []) rs).filterMap
    (fun kv => if kv.1 = w then some kv.2.data else none)

/-- One buffer update of `WindowAnyOperator::process`: append the record
to the window-key entry. -/
def anyStepBuf {T : Type} (r : Record T) (B : Int → List (Record T))
    (k : Int) : Int → List (Record T) :=
  fun q => if q = k then B k ++ [r] else B q

/-- The buffer after `WindowAnyOperator::process` has walked a key list. -/
def anyFoldBuf {T : Type} (r : Record T) :
    (Int → List (Record T)) → List Int → (Int → List (Record T))
  | B, [] => B
  | B, k :: ks => anyFoldBuf r (anyStepBuf r B k) ks

/-- The (key, output) pairs `WindowAnyOperator::process` emits while
walking a key list (one per key whose updated buffer is non-empty). -/
def anyFoldOuts {T : Type} (p : T → Bool) (r : Record T) :
    (Int → List (Record T)) → List Int → List (Int × Record Bool)
  | _, [] => []
  | B, k :: ks =>
    match WindowAnyOperator.processWindow p (B k ++ [r]) with
    | none => anyFoldOuts p r (anyStepBuf r B k) ks
    | some out => (k, out) :: anyFoldOuts p r (anyStepBuf r B k) ks

/-- `RetryStrategy` (`fluxus-core/src/error_handling/retry_strategy.rs`);
durations in (rational) milliseconds, the f64 multiplier as a rational. -/
inductive RetryStrategy where
  | noRetry
  | fixed (delay : ℚ) (max_attempts : Nat)
  | exponentialBackoff (initial_delay max_delay : ℚ) (max_attempts : Nat)
      (multiplier : ℚ)
  deriving Repr, DecidableEq

/-- `RetryStrategy::get_delay` (`retry_strategy.rs`, lines 47–76). -/
def RetryStrategy.getDelay : RetryStrategy → Nat → Option ℚ
  | .noRetry, _ => none
  | .fixed delay m, attempt => if attempt < m then some delay else none
  | .exponentialBackoff initial maxDelay m multiplier, attempt =>
    if attempt < m then some (min (initial * multiplier ^ attempt) maxDelay)
    else none

/-- The `max_attempts` budget of a strategy (`NoRetry` has none); used as
the recursion fuel of the embedded retry loop. `get_delay attempt` is
`some` only when `attempt < maxAttempts`, so the fuel never runs out. -/
def RetryStrategy.maxAttempts : RetryStrategy → Nat
  | .noRetry => 0
  | .fixed _ m => m
  | .exponentialBackoff _ _ m _ => m

/-- The loop of `ErrorHandler::retry`
(`fluxus-core/src/error_handling/mod.rs`, lines 21–51), instrumented with
the number of `operation()` invocations performed. `op` is indexed by the
attempt counter (the Rust closure is `FnMut`, so successive invocations
may differ). The `fuel = 0` fallback with a `some` delay is unreachable
from `ErrorHandler.retry` below. -/
def ErrorHandler.retryGo {E A : Type} (s : RetryStrategy)
    (op : Nat → Except E A) : Nat → Nat → Except E A × Nat
  | attempt, 0 =>
    match op attempt with
    | .ok v => (.ok v, 1)
    | .error e => (.error e, 1)
  | attempt, fuel + 1 =>
    match op attempt with
    | .ok v => (.ok v, 1)
    | .error e =>
      match s.getDelay attempt with
      | some _ =>
        let rest := ErrorHandler.retryGo s op (attempt + 1) fuel
        (rest.1, rest.2 + 1)
      | none => (.error e, 1)

/-- `ErrorHandler::retry`: start at attempt 0; the second component counts
how many times the operation was invoked. -/
def ErrorHandler.retry {E A : Type} (s : RetryStrategy)
    (op : Nat → Except E A) : Except E A × Nat :=
  ErrorHandler.retryGo s op 0 s.maxAttempts

/-- `FlatMapOperator::process` (`fluxus-api/src/operators/flat_map.rs`,
lines 36–43): one output per element of `f data`, all at the input
timestamp. -/
def FlatMapOperator.process {T R : Type} (f : T → List R) (r : Record T) :
    List (Record R) :=
  (f r.data).map (fun x => ⟨x, r.timestamp⟩)

/-- `MapOperator::process` (`fluxus-api/src/operators/map.rs`): a single
output `f data` at the input timestamp. -/
def MapOperator.process {T R : Type} (f : T → R) (r : Record T) :
    Record R :=
  ⟨f r.data, r.timestamp⟩

/-- One record pushed through one fallible operator list sequentially
(`transform_source_with_operator.rs`, lines 67–86 inner loop): process
each record, concatenating results; the first error aborts. -/
def processAll {T : Type}
    (op : Record T → StreamResult (List (Record T))) :
    List (Record T) → StreamResult (List (Record T))
  | [] => .ok []
  | r :: rs => do
    let heads ← op r
    let tails ← processAll op rs
    pure (heads ++ tails)

/-- The `T→T` operator chain of `TransformSourceWithOperator::next`
(`transform_source_with_operator.rs`, lines 64–86): starting from the
single pulled record, run each operator over the current record set; if
the set becomes empty at any stage the record was filtered out (result
`ok []`, upon which `next` pulls again). -/
def processChain {T : Type} :
    List (Record T → StreamResult (List (Record T))) →
    List (Record T) → StreamResult (List (Record T))
  | [], records => .ok records
  | op :: ops, records => do
    let processed ← processAll op records
    if processed.isEmpty then pure [] else processChain ops processed

/-- The trailing stateful `T→R` operator applied to every surviving record
(`transform_source_with_operator.rs`, lines 92–98), concatenating
outputs, threading operator state, stopping at the first error. -/
def processAllS {T R σ : Type}
    (opStep : σ → Record T → σ × StreamResult (List (Record R))) :
    σ → List (Record T) → σ × StreamResult (List (Record R))
  | s, [] => (s, .ok [])
  | s, r :: rs =>
    match opStep s r with
    | (s1, .error e) => (s1, .error e)
    | (s1, .ok out) =>
      match processAllS opStep s1 rs with
      | (s2, .error e) => (s2, .error e)
      | (s2, .ok rest) => (s2, .ok (out ++ rest))

/-- The stream of outcomes that successive
`TransformSourceWithOperator::next` calls
(`transform_source_with_operator.rs`, lines 51–101) deliver downstream,
given the upstream outcome stream `src`, the `T→T` chain `ops` and the
trailing stateful operator `opStep`. Faithful to the source:

* upstream exhaustion, upstream errors and operator errors propagate;
* a record whose `T→T` chain result is empty is skipped (`next` recurses);
* of the trailing operator results only `final_results.into_iter().next()`
  (`head?`) is returned — there is no internal buffer, so the rest of the
  vector is dropped; an empty `final_results` yields `Ok(None)`, which a
  downstream consumer takes as end-of-stream (the stream stops there). -/
def tswoEvents {T R σ : Type}
    (ops : List (Record T → StreamResult (List (Record T))))
    (opStep : σ → Record T → σ × StreamResult (List (Record R))) :
    σ → List (StreamResult (Record T)) → List (StreamResult (Record R))
  | _, [] => []
  | s, .error e :: rest => .error e :: tswoEvents ops opStep s rest
  | s, .ok r :: rest =>
    match processChain ops [r] with
    | .error e => .error e :: tswoEvents ops opStep s rest
    | .ok [] => tswoEvents ops opStep s rest
    | .ok records =>
      match processAllS opStep s records with
      | (s2, .error e) => .error e :: tswoEvents ops opStep s2 rest
      | (s2, .ok finalResults) =>
        match finalResults.head? with
        | none => []
        | some out => .ok out :: tswoEvents ops opStep s2 rest

/-- Events observable at a sink: successful writes, flush, close, and
sleeps (in ms; rational to also accommodate backoff durations). -/
inductive SinkEvent (T : Type) where
  | write (r : Record T)
  | flush
  | close
  | sleep (ms : ℚ)
  deriving Repr, DecidableEq

/-- The records successfully written to the sink, in trace order. -/
def writesOf {T : Type} : List (SinkEvent T) → List (Record T)
  | [] => []
  | .write r :: tr => r :: writesOf tr
  | _ :: tr => writesOf tr

/-- The operator application inside `TransformSource::next`
(`fluxus-transformers/src/transform_source.rs`, lines 47–67): thread a
single record through the chain, keeping only `results[0].clone()` of
each stage; an empty stage result means the record is filtered out
(`ok none`), upon which `next` pulls the upstream again. -/
def tsApplyOps {T : Type} :
    List (Record T → StreamResult (List (Record T))) →
    Record T → StreamResult (Option (Record T))
  | [], r => .ok (some r)
  | op :: ops, r =>
    match op r with
    | .error e => .error e
    | .ok [] => .ok none
    | .ok (r1 :: _) => tsApplyOps ops r1

/-- `DataStream::sink` (`fluxus-api/src/stream/datastream.rs`, lines
118–141) driving `TransformSource` (see `tsApplyOps` above): the
filtered-record loop inside `TransformSource::next` and the sink loop
collapse into one recursion over the upstream outcome list. The sink loop
matches errors surfacing from `next`: `EOF` breaks (then flush+close),
`Wait(ms)` sleeps and re-polls, anything else returns the error
immediately (no flush/close); a failing `write` likewise returns its
error immediately. -/
def dataStreamSink {T : Type}
    (ops : List (Record T → StreamResult (List (Record T))))
    (sinkW : Record T → StreamResult Unit) :
    List (StreamResult (Record T)) → StreamResult Unit × List (SinkEvent T)
  | [] => (.ok (), [.flush, .close])
  | .error e :: rest =>
    match e with
    | .eof => (.ok (), [.flush, .close])
    | .wait ms =>
      let cont := dataStreamSink ops sinkW rest
      (cont.1, .sleep ms :: cont.2)
    | e => (.error e, [])
  | .ok r :: rest =>
    match tsApplyOps ops r with
    | .error .eof => (.ok (), [.flush, .close])
    | .error (.wait ms) =>
      let cont := dataStreamSink ops sinkW rest
      (cont.1, .sleep ms :: cont.2)
    | .error e => (.error e, [])
    | .ok none => dataStreamSink ops sinkW rest
    | .ok (some r2) =>
      match sinkW r2 with
      | .error e => (.error e, [])
      | .ok _ =>
        let cont := dataStreamSink ops sinkW rest
        (cont.1, .write r2 :: cont.2)

/-- `BackpressureStrategy`
(`fluxus-core/src/error_handling/backpressure.rs`); the backoff duration
in rational ms. -/
inductive BackpressureStrategy where
  | block
  | dropOldest
  | dropNewest
  | throttle (high_watermark low_watermark : Nat) (backoff : ℚ)
  deriving Repr, DecidableEq

/-- `BackpressureController` (`backpressure.rs`, lines 21–63). -/
structure BackpressureController where
  strategy : BackpressureStrategy
  current_load : Nat
  deriving Repr, DecidableEq

/-- `BackpressureController::new`: load starts at 0. -/
def BackpressureController.new (s : BackpressureStrategy) :
    BackpressureController :=
  ⟨s, 0⟩

/-- `BackpressureController::should_apply_backpressure`. -/
def BackpressureController.shouldApplyBackpressure
    (c : BackpressureController) : Bool :=
  match c.strategy with
  | .block => decide (0 < c.current_load)
  | .dropOldest => false
  | .dropNewest => false
  | .throttle high _ _ => decide (high ≤ c.current_load)

/-- `BackpressureController::get_backoff`. -/
def BackpressureController.getBackoff (c : BackpressureController) :
    Option ℚ :=
  match c.strategy with
  | .throttle _ _ backoff => some backoff
  | _ => none

/-- `BackpressureController::update_load`. -/
def BackpressureController.updateLoad (c : BackpressureController)
    (load : Nat) : BackpressureController :=
  { c with current_load := load }

/-- The observable outcome of `Pipeline::execute`: a normal return, an
error return, or divergence (the branch at `processor.rs` lines 202–208
sleeps and `continue`s without ever changing the load, so once entered it
repeats forever). -/
inductive RunOutcome where
  | ok
  | err (e : StreamError)
  | hang
  deriving Repr, DecidableEq

/-- The result of the embedded `Pipeline::execute`: outcome, the sink
event trace, and the `records_processed` / `records_failed` counters. -/
structure PipelineResult (T : Type) where
  outcome : RunOutcome
  events : List (SinkEvent T)
  processed : Nat
  failed : Nat
  deriving Repr, DecidableEq

/-- `Pipeline::process_with_retry` / `write_with_retry`
(`processor.rs`, lines 155–186): one operation wrapped in
`ErrorHandler::retry`. The embedded operators and sink are pure, so every
attempt invokes the same function. -/
def withRetry {A : Type} (rs : RetryStrategy) (act : StreamResult A) :
    StreamResult A :=
  (ErrorHandler.retry rs (fun _ => act)).1

/-- The inner per-operator loop of `Pipeline::execute` (`processor.rs`,
lines 223–233): each current record through the operator with retry,
concatenating the fan-out; the first retries-exhausted error aborts the
loop (`success = false`). -/
def applyOpRetry {T : Type} (rs : RetryStrategy)
    (op : Record T → StreamResult (List (Record T))) :
    List (Record T) → StreamResult (List (Record T))
  | [] => .ok []
  | r :: rest => do
    let out ← withRetry rs (op r)
    let tail ← applyOpRetry rs op rest
    pure (out ++ tail)

/-- The operator chain of `Pipeline::execute` (`processor.rs`, lines
219–239): unlike the transform sources, an empty record set simply flows
on to the next operator. -/
def pipelineChain {T : Type} (rs : RetryStrategy) :
    List (Record T → StreamResult (List (Record T))) →
    List (Record T) → StreamResult (List (Record T))
  | [], records => .ok records
  | op :: ops, records => do
    let next ← applyOpRetry rs op records
    pipelineChain rs ops next

/-- The sink write loop of `Pipeline::execute` (`processor.rs`, lines
246–256): `while let Some(record) = records.pop()` — the caller passes
the surviving records **reversed**, because `Vec::pop` takes from the
back. Each write goes through retry; success bumps `records_processed`,
failure bumps `records_failed` and the loop continues. Returns
(trace, processed, failed). -/
def sinkWriteLoop {T : Type} (rs : RetryStrategy)
    (sinkW : Record T → StreamResult Unit) :
    List (Record T) → List (SinkEvent T) × Nat × Nat
  | [] => ([], 0, 0)
  | r :: rest =>
    let cont := sinkWriteLoop rs sinkW rest
    match withRetry rs (sinkW r) with
    | .ok _ => (.write r :: cont.1, cont.2.1 + 1, cont.2.2)
    | .error _ => (cont.1, cont.2.1, cont.2.2 + 1)

/-- `Pipeline::execute` (`fluxus-core/src/pipeline/processor.rs`, lines
189–284), embedded for a pipeline without window configuration (the
default: `window_config = None`, so the 100 ms watermark tick branch is a
no-op and the select loop always advances on the source). Per iteration:

1. if the backpressure controller says brake **and** has a backoff, the
   code sleeps and `continue`s without updating the load — it repeats
   forever: outcome `hang`;
2. source exhausted ⇒ break, then `flush`, `close`, status `Completed`;
3. a source error (any, including `Wait`) bumps `records_failed` and
   returns the error — no flush/close;
4. a record runs the operator chain with retry; retries-exhausted bumps
   `records_failed` once, skips the record (note `std::mem::take` leaves
   `records` empty, so the subsequent `update_load` sees 0);
5. surviving records are written back-to-front (`Vec::pop`) with retry,
   bumping the counters per write. -/
def pipelineExecute {T : Type} (rs : RetryStrategy)
    (ops : List (Record T → StreamResult (List (Record T))))
    (sinkW : Record T → StreamResult Unit) :
    BackpressureController → List (StreamResult (Record T)) →
    PipelineResult T
  | bp, src =>
    if bp.shouldApplyBackpressure ∧ bp.getBackoff.isSome then
      ⟨.hang, [], 0, 0⟩
    else
      match src with
      | [] => ⟨.ok, [.flush, .close], 0, 0⟩
      | .error e :: _ => ⟨.err e, [], 0, 1⟩
      | .ok r :: rest =>
        match pipelineChain rs ops [r] with
        | .error _ =>
          let res := pipelineExecute rs ops sinkW (bp.updateLoad 0) rest
          ⟨res.outcome, res.events, res.processed, res.failed + 1⟩
        | .ok records =>
          let bp2 := bp.updateLoad records.length
          let written := sinkWriteLoop rs sinkW records.reverse
          let res := pipelineExecute rs ops sinkW bp2 rest
          ⟨res.outcome, written.1 ++ res.events,
            written.2.1 + res.processed, written.2.2 + res.failed⟩

/-- The `top_k` fold step (`fluxus-api/src/stream/windowed_stream.rs`,
lines 88–96): push onto the min-heap of the `k` largest, pop the minimum
when over size. The `BinaryHeap<Reverse<T>>` is modelled by its sorted
ascending element list: push is ordered insertion, popping the maximal
`Reverse` element removes the list head (the minimum value). -/
def topKFold {T : Type} [LinearOrder T] (k : Nat) (heap : List T) (v : T) :
    List T :=
  let pushed := List.orderedInsert (· ≤ ·) v heap
  if k < pushed.length then pushed.tail else pushed

/-- The `top_k` final projection (`windowed_stream.rs`, lines 97–102):
`into_sorted_vec` on `Reverse`-wrapped elements lists them in descending
value order — the reverse of the ascending heap list. -/
def topKProject {T : Type} (heap : List T) : List T :=
  heap.reverse

/-- The `window(Global).top_k(k)` pipeline of the spec scenario: the
aggregator with the `top_k` fold as a `TransformSourceWithOperator`, the
projection `map` as a second one, drained by `DataStream::sink` (an
always-succeeding collection sink); the output is the list of records the
sink collects. -/
def topKPipeline {T : Type} [LinearOrder T] (k : Nat)
    (xs : List (Record T)) : List (Record (List T)) :=
  let cfg : WindowConfig := ⟨.global, 0, 0⟩
  let aggregated := tswoEvents []
    (fun st r => Prod.map id .ok
      (WindowAggregator.process cfg [] (topKFold k) st r))
    (KeyedStateBackend.new Nat (List T)) (xs.map .ok)
  let projected := tswoEvents []
    (fun (u : Unit) r => (u, .ok [MapOperator.process topKProject r]))
    () aggregated
  writesOf (dataStreamSink [] (fun _ => .ok ()) projected).2

/-- Spec-side descending sort: insertion sort by `≥`. -/
def sortDesc {T : Type} [LinearOrder T] (l : List T) : List T :=
  l.insertionSort (fun a b => b ≤ a)

/-- The `k` largest elements of a list, as a sorted ascending list (the
canonical value of the `top_k` min-heap accumulator). -/
def kLargestAsc {T : Type} [LinearOrder T] (k : Nat) (l : List T) : List T :=
  (l.insertionSort (· ≤ ·)).drop (l.length - k)

/-- The records the `top_k` pipeline emits from a given heap state: one
projected heap per input. -/
def topKStatesFrom {T : Type} [LinearOrder T] (k : Nat) (heap : List T) :
    List (Record T) → List (Record (List T))
  | [] => []
  | r :: rs =>
    ⟨topKProject (topKFold k heap r.data), r.timestamp⟩
      :: topKStatesFrom k (topKFold k heap r.data) rs

/-- Spec-side expected `top_k` outputs: for each input, the `k` largest of
the values seen so far (after a fixed prefix `pre`), sorted descending. -/
def topKExpected {T : Type} [LinearOrder T] (k : Nat) (pre : List T) :
    List (Record T) → List (List T)
  | [] => []
  | r :: rs =>
    (sortDesc (pre ++ [r.data])).take k
      :: topKExpected k (pre ++ [r.data]) rs

/-- One state update of `WindowAggregator::process` for one window key:
store `f (current accumulator) data` under the key. -/
def aggStep {T A : Type} (init : A) (f : A → T → A) (d : T)
    (s : KeyedStateBackend Nat A) (k : Nat) : KeyedStateBackend Nat A :=
  s.set k (f ((s.get k).getD init) d)

/-- The output records `WindowAggregator::process` emits for a key list,
starting from a given state (one record per key, carrying the new
accumulator at the input timestamp). -/
def aggOuts {T A : Type} (init : A) (f : A → T → A) (d : T) (ts : Int) :
    KeyedStateBackend Nat A → List Nat → List (Record A)
  | _, [] => []
  | s, k :: ks =>
    ⟨f ((s.get k).getD init) d, ts⟩ :: aggOuts init f d ts (aggStep init f d s k) ks

/-- The truth values `any(p)` takes on the growing buffer `base ++ rel
prefix`, one entry per appended record. -/
def anyPrefixOuts {T : Type} (p : T → Bool) :
    List (Record T) → List (Record T) → List Bool
  | _, [] => []
  | base, r :: rest =>
    (base ++ [r]).any (fun rec => p rec.data) :: anyPrefixOuts p (base ++ [r]) rest

/-- The fan-out of a chain of pure (error-free) `T→T` operators on one
record, in operator-produced order. -/
def chainPure {T : Type} (gops : List (Record T → List (Record T)))
    (r : Record T) : List (Record T) :=
  gops.foldl (fun recs g => recs.flatMap g) [r]

/-- The `DataStream::new(source).flat_map(f).sink(collector)` pipeline of
the repository test `datastreams_test.rs::test_flat_map`: the flat-map
operator rides in a `TransformSourceWithOperator`, which
`DataStream::sink` drains into an always-succeeding collection sink. -/
def flatMapPipeline {T R : Type} (f : T → List R) (xs : List (Record T)) :
    List (Record R) :=
  writesOf (dataStreamSink [] (fun _ => .ok ())
    (tswoEvents [] (fun (u : Unit) r => (u, .ok (FlatMapOperator.process f r)))
      () (xs.map .ok))).2

/-! ## Helper lemmas -/

theorem applySets_get_of_not_mem {K V : Type} [DecidableEq K]
    (ops : List (K × V)) (s : KeyedStateBackend K V) (k : K)
    (h : k ∉ ops.map Prod.fst) : (s.applySets ops).get k = s.get k := by
  induction ops generalizing s with
  | nil => rfl
  | cons kv rest ih =>
    simp only [List.map_cons, List.mem_cons, not_or] at h
    have step : (s.set kv.1 kv.2).get k = s.get k := by
      simp [KeyedStateBackend.get, KeyedStateBackend.set, h.1]
    calc (s.applySets (kv :: rest)).get k
        = ((s.set kv.1 kv.2).applySets rest).get k := rfl
      _ = (s.set kv.1 kv.2).get k := ih _ h.2
      _ = s.get k := step

theorem agg_foldl_eq {T A : Type} (init : A) (f : A → T → A) (d : T)
    (ts : Int) (ks : List Nat) (st : KeyedStateBackend Nat A)
    (acc : List (Record A)) :
    ks.foldl (fun acc key =>
        let current := (acc.1.get key).getD init
        let newValue := f current d
        (acc.1.set key newValue, acc.2 ++ [⟨newValue, ts⟩]))
      (st, acc) =
      (ks.foldl (aggStep init f d) st, acc ++ aggOuts init f d ts st ks) := by
  induction ks generalizing st acc with
  | nil => simp [aggOuts]
  | cons k ks ih =>
    simp only [List.foldl_cons, aggOuts]
    rw [ih]
    simp [aggStep, List.append_assoc]

theorem aggOuts_length {T A : Type} (init : A) (f : A → T → A) (d : T)
    (ts : Int) (ks : List Nat) (st : KeyedStateBackend Nat A) :
    (aggOuts init f d ts st ks).length = ks.length := by
  induction ks generalizing st with
  | nil => rfl
  | cons k ks ih => simp [aggOuts, ih]

theorem aggOuts_getD {T A : Type} (init : A) (f : A → T → A) (d : T)
    (ts : Int) (ks : List Nat) (st : KeyedStateBackend Nat A) (i : Nat)
    (h : i < ks.length) :
    (aggOuts init f d ts st ks).getD i ⟨init, ts⟩ =
      ⟨f ((((ks.take i).foldl (aggStep init f d) st).get (ks.getD i 0)).getD init) d,
        ts⟩ := by
  induction ks generalizing st i with
  | nil => simp at h
  | cons k ks ih =>
    cases i with
    | zero => simp [aggOuts]
    | succ i =>
      simp only [aggOuts, List.getD_cons_succ, List.take_succ_cons,
        List.foldl_cons]
      exact ih _ i (by simpa using h)

/-! ## C10 — keyed state backend map laws -/

/-- **C10**: `KeyedStateBackend` satisfies the map laws at its public
interface: `get` of a never-set key is `none`; directly after
`set k v`, `get k` returns `some v` (value equality — reads return
clones, modelled as values); `set k v` leaves every other key
unchanged. -/
theorem keyedStateBackend_map_laws {K V : Type} [DecidableEq K] :
    (∀ (ops : List (K × V)) (k : K), k ∉ ops.map Prod.fst →
      ((KeyedStateBackend.new K V).applySets ops).get k = none) ∧
    (∀ (s : KeyedStateBackend K V) (k : K) (v : V),
      (s.set k v).get k = some v) ∧
    (∀ (s : KeyedStateBackend K V) (k q : K) (v : V), q ≠ k →
      (s.set k v).get q = s.get q) := by
  refine ⟨fun ops k h => ?_, fun s k v => ?_, fun s k q v h => ?_⟩
  · rw [applySets_get_of_not_mem ops _ k h]; rfl
  · simp [KeyedStateBackend.get, KeyedStateBackend.set]
  · simp [KeyedStateBackend.get, KeyedStateBackend.set, h]

/-- Witness for C10 at concrete inputs. -/
theorem keyedStateBackend_map_laws_witness :
    ((KeyedStateBackend.new Nat Nat).applySets [(1, 2), (3, 4)]).get 0 = none ∧
    ((KeyedStateBackend.new Nat Nat).set 5 7).get 5 = some 7 ∧
    ((KeyedStateBackend.new Nat Nat).set 5 7).get 6 =
      (KeyedStateBackend.new Nat Nat).get 6 :=
  ⟨keyedStateBackend_map_laws.1 [(1, 2), (3, 4)] 0 (by decide),
   keyedStateBackend_map_laws.2.1 _ 5 7,
   keyedStateBackend_map_laws.2.2 _ 5 6 7 (by decide)⟩

/-! ## C3 — windowed aggregator: incremental emit -/

/-- **C3**: for every record, `WindowAggregator::process` emits exactly
one output per window key of the record timestamp (incremental-emit);
the `i`-th output reads the accumulator currently stored for the `i`-th
key (`init` if absent), carries the new accumulator `f acc data` as its
payload, stamps it with the input timestamp, and the store is updated
key by key with exactly those values. -/
theorem windowAggregator_incremental_emit {T A : Type} (cfg : WindowConfig)
    (init : A) (f : A → T → A) (st : KeyedStateBackend Nat A)
    (r : Record T) :
    (WindowAggregator.process cfg init f st r).2.length
        = (cfg.window_type.getWindowKeys r.timestamp).length ∧
    (WindowAggregator.process cfg init f st r).1
        = (cfg.window_type.getWindowKeys r.timestamp).foldl
            (aggStep init f r.data) st ∧
    ∀ i, i < (cfg.window_type.getWindowKeys r.timestamp).length →
      (WindowAggregator.process cfg init f st r).2.getD i ⟨init, r.timestamp⟩ =
        ⟨f (((((cfg.window_type.getWindowKeys r.timestamp).take i).foldl
              (aggStep init f r.data) st).get
                ((cfg.window_type.getWindowKeys r.timestamp).getD i 0)).getD
              init) r.data,
          r.timestamp⟩ := by
  have h := agg_foldl_eq init f r.data r.timestamp
      (cfg.window_type.getWindowKeys r.timestamp) st []
  unfold WindowAggregator.process
  rw [h]
  refine ⟨by simp [aggOuts_length], by simp, fun i hi => ?_⟩
  simpa using aggOuts_getD init f r.data r.timestamp _ st i hi

/-- Witness for C3: a global window, sum aggregator, fresh state. -/
theorem windowAggregator_incremental_emit_witness :
    (WindowAggregator.process (T := Nat) (A := Nat) ⟨.global, 0, 0⟩ 0
        (fun a v => a + v) (KeyedStateBackend.new Nat Nat)
        ⟨5, 123⟩).2.getD 0 ⟨0, 123⟩ = ⟨5, 123⟩ := by
  have h := (windowAggregator_incremental_emit (T := Nat) (A := Nat)
      ⟨.global, 0, 0⟩ 0 (fun a v => a + v) (KeyedStateBackend.new Nat Nat)
      ⟨5, 123⟩).2.2 0 (by decide)
  rw [h]
  rfl

/-! ## C7 — retry loop -/

theorem retryGo_count_le {E A : Type} (s : RetryStrategy)
    (op : Nat → Except E A) (fuel attempt : Nat) :
    (ErrorHandler.retryGo s op attempt fuel).2 ≤ fuel + 1 := by
  induction fuel generalizing attempt with
  | zero =>
    unfold ErrorHandler.retryGo
    cases h : op attempt <;> simp
  | succ fuel ih =>
    unfold ErrorHandler.retryGo
    cases h : op attempt with
    | ok v => simp
    | error e =>
      cases hd : s.getDelay attempt with
      | none => simp
      | some d =>
        simp only []
        have := ih (attempt + 1)
        omega

theorem retryGo_ok {E A : Type} (s : RetryStrategy) (op : Nat → Except E A)
    (attempt fuel : Nat) {v : A} (h : op attempt = .ok v) :
    ErrorHandler.retryGo s op attempt fuel = (.ok v, 1) := by
  cases fuel <;> (unfold ErrorHandler.retryGo; rw [h])

theorem retryGo_fixed_ok {E A : Type} (delay : ℚ) (m : Nat)
    (op : Nat → Except E A) (fuel attempt k : Nat) (v : A)
    (hm : attempt + fuel = m) (hk : k ≤ fuel)
    (hfail : ∀ i, i < k → ∃ e, op (attempt + i) = .error e)
    (hok : op (attempt + k) = .ok v) :
    ErrorHandler.retryGo (.fixed delay m) op attempt fuel = (.ok v, k + 1) := by
  induction fuel generalizing attempt k with
  | zero =>
    have hk0 : k = 0 := by omega
    subst hk0
    exact retryGo_ok _ _ _ _ (by simpa using hok)
  | succ fuel ih =>
    cases k with
    | zero => exact retryGo_ok _ _ _ _ (by simpa using hok)
    | succ k =>
      obtain ⟨e, he⟩ := hfail 0 (Nat.succ_pos k)
      rw [show attempt + 0 = attempt from rfl] at he
      have hlt : attempt < m := by omega
      unfold ErrorHandler.retryGo
      rw [he]
      have hd : RetryStrategy.getDelay (.fixed delay m) attempt = some delay := by
        simp [RetryStrategy.getDelay, hlt]
      rw [hd]
      have hrec := ih (attempt + 1) k (by omega) (by omega)
          (fun i hi => by
            have hx : attempt + 1 + i = attempt + (i + 1) := by omega
            rw [hx]
            exact hfail (i + 1) (by omega))
          (by
            have hx : attempt + 1 + k = attempt + (k + 1) := by omega
            rw [hx]
            exact hok)
      simp only [hrec]

theorem retryGo_fixed_allfail {E A : Type} (delay : ℚ) (m : Nat)
    (op : Nat → Except E A) (err : Nat → E) (fuel attempt : Nat)
    (hm : attempt + fuel = m)
    (hfail : ∀ i, i ≤ fuel → op (attempt + i) = .error (err (attempt + i))) :
    ErrorHandler.retryGo (.fixed delay m) op attempt fuel
      = (.error (err m), fuel + 1) := by
  induction fuel generalizing attempt with
  | zero =>
    have hattempt : attempt = m := by omega
    have he := hfail 0 (Nat.le_refl 0)
    rw [show attempt + 0 = attempt from rfl] at he
    unfold ErrorHandler.retryGo
    rw [he, hattempt]
  | succ fuel ih =>
    have he := hfail 0 (Nat.zero_le _)
    rw [show attempt + 0 = attempt from rfl] at he
    have hlt : attempt < m := by omega
    unfold ErrorHandler.retryGo
    rw [he]
    have hd : RetryStrategy.getDelay (.fixed delay m) attempt = some delay := by
      simp [RetryStrategy.getDelay, hlt]
    rw [hd]
    have hrec := ih (attempt + 1) (by omega) (fun i hi => by
      have hx : attempt + 1 + i = attempt + (i + 1) := by omega
      rw [hx]
      exact hfail (i + 1) (by omega))
    simp only [hrec]

/-- **C7**: with `Fixed delay m`, `ErrorHandler::retry` invokes the
operation at most `m + 1` times; it returns `Ok` with the operation value
as soon as an invocation succeeds (first `k ≤ m` invocations failing, the
next succeeding, yields `Ok` after exactly `k + 1` invocations, no error
surfaced); the last error surfaces only after `m + 1` consecutive
failures; under `NoRetry` a failing operation is invoked exactly once. -/
theorem errorHandler_retry_spec {E A : Type} (delay : ℚ) (m : Nat)
    (op : Nat → Except E A) :
    ((ErrorHandler.retry (.fixed delay m) op).2 ≤ m + 1) ∧
    (∀ k v, k ≤ m → (∀ i, i < k → ∃ e, op i = .error e) → op k = .ok v →
      ErrorHandler.retry (.fixed delay m) op = (.ok v, k + 1)) ∧
    (∀ err : Nat → E, (∀ i, i ≤ m → op i = .error (err i)) →
      ErrorHandler.retry (.fixed delay m) op = (.error (err m), m + 1)) ∧
    (∀ e, op 0 = .error e → ErrorHandler.retry .noRetry op = (.error e, 1)) := by
  refine ⟨?_, ?_, ?_, ?_⟩
  · exact retryGo_count_le (.fixed delay m) op m 0
  · intro k v hk hfail hok
    exact retryGo_fixed_ok delay m op m 0 k v (by omega) hk
      (fun i hi => by simpa using hfail i hi) (by simpa using hok)
  · intro err h
    exact retryGo_fixed_allfail delay m op err m 0 (by omega)
      (fun i hi => by simpa using h i hi)
  · intro e he
    simp [ErrorHandler.retry, RetryStrategy.maxAttempts,
      ErrorHandler.retryGo, he]

/-- Witness for C7: two failures then success under `Fixed(max_attempts=3)`
gives `Ok` in 3 invocations; `NoRetry` fails in one. -/
theorem errorHandler_retry_spec_witness :
    ErrorHandler.retry (E := String) (.fixed 1 3)
        (fun i => if i < 2 then .error "e" else .ok 37) = (.ok 37, 3) ∧
    ErrorHandler.retry (E := String) (A := Nat) .noRetry
        (fun _ => .error "e") = (.error "e", 1) := by
  constructor
  · exact (errorHandler_retry_spec 1 3 _).2.1 2 37 (by decide)
      (fun i hi => ⟨"e", by interval_cases i <;> rfl⟩) rfl
  · exact (errorHandler_retry_spec (A := Nat) 1 3 _).2.2.2 "e" rfl

/-! ## C1 — flat_map fan-out is dropped by TransformSourceWithOperator -/

/-- **C1** (the code at the failing input of its own test
`datastreams_test.rs::test_flat_map`): feeding `[1, 2, 3]` through
`flat_map(|v| vec![v; v])` delivers `[1, 2, 3]` — one record per upstream
pull, since `TransformSourceWithOperator::next` returns only
`final_results.into_iter().next()` and keeps no buffer — instead of the
`Σ|f(x)| = 6` records `[1, 2, 2, 3, 3, 3]` that the claim, the spec and
the repository test require. -/
theorem flatMap_fanout_dropped :
    (flatMapPipeline (fun v => List.replicate v v)
        ([1, 2, 3].map (fun v => (⟨v, 0⟩ : Record Nat)))).map Record.data
      = [1, 2, 3] ∧
    (([1, 2, 3] : List Nat).map (fun v => (List.replicate v v).length)).sum
      = 6 ∧
    (flatMapPipeline (fun v => List.replicate v v)
        ([1, 2, 3].map (fun v => (⟨v, 0⟩ : Record Nat)))).length ≠ 6 := by
  exact ⟨rfl, rfl, by decide⟩

/-! ## C5 — source Wait handling -/

/-- **C5** (amended): in `DataStream::sink` a source `Wait(d)` makes the
driver sleep `d` ms and poll again; the run continues exactly as if the
`Wait` were not there (same result, one `sleep d` prepended to the
trace), nothing is counted as a failure (the driver keeps no failure
counter) and nothing aborts. `Pipeline::execute`, by contrast, treats a
source `Wait` as a fatal error — see the counterexample theorem. -/
theorem dataStreamSink_wait_sleeps {T : Type}
    (ops : List (Record T → StreamResult (List (Record T))))
    (sinkW : Record T → StreamResult Unit) (d : Nat)
    (rest : List (StreamResult (Record T))) :
    dataStreamSink ops sinkW (.error (.wait d) :: rest) =
      ((dataStreamSink ops sinkW rest).1,
        .sleep d :: (dataStreamSink ops sinkW rest).2) := rfl

/-- **C5** (counterexample): `Pipeline::execute` on a source returning
`Err(Wait(5))` aborts the execution with that error and increments
`records_failed` (`processor.rs`, lines 264–268 have no `Wait` arm),
refuting the claim that a `Wait` is slept on and not counted. -/
theorem pipelineExecute_wait_counterexample :
    pipelineExecute (T := Nat) .noRetry [] (fun _ => .ok ())
        (BackpressureController.new .block) [.error (.wait 5)] =
      ⟨.err (.wait 5), [], 0, 1⟩ := by
  decide

/-! ## C6 — fan-out write order in linear mode -/

theorem withRetry_ok {A : Type} (rs : RetryStrategy) (a : A) :
    withRetry rs (Except.ok a) = Except.ok a := by
  unfold withRetry ErrorHandler.retry
  rw [retryGo_ok rs (fun _ => Except.ok a) 0 rs.maxAttempts rfl]

theorem applyOpRetry_pure {T : Type} (rs : RetryStrategy)
    (g : Record T → List (Record T)) (recs : List (Record T)) :
    applyOpRetry rs (fun r => .ok (g r)) recs = .ok (recs.flatMap g) := by
  induction recs with
  | nil => rfl
  | cons r rest ih =>
    simp only [applyOpRetry, withRetry_ok, ih]
    rfl

theorem pipelineChain_pure {T : Type} (rs : RetryStrategy)
    (gops : List (Record T → List (Record T))) (recs : List (Record T)) :
    pipelineChain rs (gops.map (fun g r => .ok (g r))) recs
      = .ok (gops.foldl (fun recs g => recs.flatMap g) recs) := by
  induction gops generalizing recs with
  | nil => rfl
  | cons g gops ih =>
    simp only [pipelineChain, List.map_cons, applyOpRetry_pure]
    exact ih (recs.flatMap g)

theorem sinkWriteLoop_all_ok {T : Type} (rs : RetryStrategy)
    (l : List (Record T)) :
    sinkWriteLoop rs (fun _ => .ok ()) l = (l.map .write, l.length, 0) := by
  induction l with
  | nil => rfl
  | cons r rest ih =>
    simp only [sinkWriteLoop, withRetry_ok, ih]
    simp

theorem block_brake_is_off (load : Nat) :
    ¬((BackpressureController.mk .block load).shouldApplyBackpressure ∧
      (BackpressureController.mk .block load).getBackoff.isSome) := by
  simp [BackpressureController.getBackoff]

theorem pipelineExecute_pure_run {T : Type} (rs : RetryStrategy)
    (gops : List (Record T → List (Record T))) (xs : List (Record T))
    (load : Nat) :
    pipelineExecute rs (gops.map (fun g r => .ok (g r))) (fun _ => .ok ())
        ⟨.block, load⟩ (xs.map .ok) =
      ⟨.ok,
        (xs.map (fun r => ((chainPure gops r).reverse).map .write)).flatten
          ++ [.flush, .close],
        (xs.map (fun r => (chainPure gops r).length)).sum, 0⟩ := by
  induction xs generalizing load with
  | nil =>
    unfold pipelineExecute
    rw [if_neg (block_brake_is_off load)]
    simp
  | cons x xs ih =>
    unfold pipelineExecute
    rw [if_neg (block_brake_is_off load)]
    simp only [List.map_cons]
    have hchain : pipelineChain rs (gops.map (fun g r => .ok (g r))) [x]
        = .ok (chainPure gops x) := pipelineChain_pure rs gops [x]
    simp only [hchain, BackpressureController.updateLoad,
      sinkWriteLoop_all_ok, ih]
    simp [List.append_assoc, Nat.add_comm]

/-- **C6** (amended): in linear mode, for a source of records all of which
survive a pure operator chain, the fan-out of each input is written to the
sink contiguously but in **reverse** operator-produced order
(`while let Some(record) = records.pop()` pops from the back of the
vector), followed by the final flush and close. -/
theorem pipelineExecute_fanout_reversed {T : Type} (rs : RetryStrategy)
    (gops : List (Record T → List (Record T))) (xs : List (Record T)) :
    pipelineExecute rs (gops.map (fun g r => .ok (g r))) (fun _ => .ok ())
        (BackpressureController.new .block) (xs.map .ok) =
      ⟨.ok,
        (xs.map (fun r => ((chainPure gops r).reverse).map .write)).flatten
          ++ [.flush, .close],
        (xs.map (fun r => (chainPure gops r).length)).sum, 0⟩ :=
  pipelineExecute_pure_run rs gops xs 0

/-- **C6** (counterexample): one input record whose operator fan-out is
`[⟨10⟩, ⟨20⟩]` reaches the sink as `⟨20⟩` then `⟨10⟩` — not in
operator-produced order. -/
theorem pipelineExecute_fanout_order_counterexample :
    writesOf (pipelineExecute (T := Nat) .noRetry
        [fun r => .ok [⟨10, r.timestamp⟩, ⟨20, r.timestamp⟩]]
        (fun _ => .ok ()) (BackpressureController.new .block)
        [.ok ⟨1, 0⟩]).events = [⟨20, 0⟩, ⟨10, 0⟩] ∧
    ([(⟨20, 0⟩ : Record Nat), ⟨10, 0⟩] ≠ [⟨10, 0⟩, ⟨20, 0⟩]) := by
  exact ⟨by decide, by decide⟩

/-! ## C4 — flush and close before returning -/

/-- **C4** (amended): whenever `DataStream::sink` or `Pipeline::execute`
returns normally (`Ok` / status `Completed`), the sink was flushed and
then closed as the very last actions before returning. Error returns
leave without flush/close (see the counterexample), and
`RuntimeContext::execute_pipeline` merely spawns tasks and returns
immediately, so no flush/close ordering holds for it (concurrent,
outside this sequential embedding). -/
theorem execution_flush_close_on_ok {T : Type} :
    (∀ (ops : List (Record T → StreamResult (List (Record T))))
        (sinkW : Record T → StreamResult Unit)
        (src : List (StreamResult (Record T))),
      (dataStreamSink ops sinkW src).1 = .ok () →
      [SinkEvent.flush, SinkEvent.close] <:+ (dataStreamSink ops sinkW src).2) ∧
    (∀ (rs : RetryStrategy)
        (ops : List (Record T → StreamResult (List (Record T))))
        (sinkW : Record T → StreamResult Unit)
        (bp : BackpressureController)
        (src : List (StreamResult (Record T))),
      (pipelineExecute rs ops sinkW bp src).outcome = .ok →
      [SinkEvent.flush, SinkEvent.close] <:+
        (pipelineExecute rs ops sinkW bp src).events) := by
  constructor
  · intro ops sinkW src
    induction src with
    | nil => intro _; exact List.suffix_refl _
    | cons e rest ih =>
      cases e with
      | error err =>
        cases err with
        | eof => intro _; exact List.suffix_refl _
        | wait ms =>
          intro h
          simp only [dataStreamSink] at h ⊢
          exact (ih h).trans (List.suffix_cons _ _)
        | ioError m => intro h; simp [dataStreamSink] at h
        | serialization m => intro h; simp [dataStreamSink] at h
        | config m => intro h; simp [dataStreamSink] at h
        | runtime m => intro h; simp [dataStreamSink] at h
      | ok r =>
        intro h
        simp only [dataStreamSink] at h ⊢
        cases hop : tsApplyOps ops r with
        | error e2 =>
          cases e2 with
          | eof => simp [hop]
          | wait ms =>
            simp only [hop] at h ⊢
            exact (ih h).trans (List.suffix_cons _ _)
          | ioError m => rw [hop] at h; simp at h
          | serialization m => rw [hop] at h; simp at h
          | config m => rw [hop] at h; simp at h
          | runtime m => rw [hop] at h; simp at h
        | ok o =>
          cases o with
          | none =>
            simp only [hop] at h ⊢
            exact ih h
          | some r2 =>
            simp only [hop] at h ⊢
            cases hw : sinkW r2 with
            | error e3 => rw [hw] at h; simp at h
            | ok u =>
              simp only [hw] at h ⊢
              exact (ih h).trans (List.suffix_cons _ _)
  · intro rs ops sinkW bp src
    induction src generalizing bp with
    | nil =>
      intro h
      unfold pipelineExecute at h ⊢
      by_cases hb : ((bp.shouldApplyBackpressure = true) ∧
          bp.getBackoff.isSome = true)
      · rw [if_pos hb] at h; simp at h
      · rw [if_neg hb] at h ⊢
        try exact List.suffix_refl _
    | cons e rest ih =>
      intro h
      unfold pipelineExecute at h ⊢
      by_cases hb : ((bp.shouldApplyBackpressure = true) ∧
          bp.getBackoff.isSome = true)
      · rw [if_pos hb] at h; simp at h
      · rw [if_neg hb] at h ⊢
        cases e with
        | error err => simp at h
        | ok r =>
          cases hchain : pipelineChain rs ops [r] with
          | error e2 =>
            simp only [hchain] at h ⊢
            exact ih _ h
          | ok records =>
            simp only [hchain] at h ⊢
            exact (ih _ h).trans (List.suffix_append _ _)

/-- Witness for C4 at concrete inputs: both drivers return `Ok` on a
one-record source, and their traces end in flush-then-close. -/
theorem execution_flush_close_on_ok_witness :
    [SinkEvent.flush, SinkEvent.close] <:+
      (dataStreamSink (T := Nat) [] (fun _ => .ok ()) [.ok ⟨1, 0⟩]).2 ∧
    [SinkEvent.flush, SinkEvent.close] <:+
      (pipelineExecute (T := Nat) .noRetry [] (fun _ => .ok ())
        (BackpressureController.new .block) [.ok ⟨1, 0⟩]).events :=
  ⟨execution_flush_close_on_ok.1 [] (fun _ => .ok ()) [.ok ⟨1, 0⟩] rfl,
   execution_flush_close_on_ok.2 .noRetry [] (fun _ => .ok ())
     (BackpressureController.new .block) [.ok ⟨1, 0⟩] rfl⟩

/-- **C4** (counterexample): on a source error, `Pipeline::execute`
returns without having flushed or closed the sink — the sink event trace
of the whole execution is empty. -/
theorem pipelineExecute_error_no_flush_counterexample :
    (pipelineExecute (T := Nat) .noRetry [] (fun _ => .ok ())
        (BackpressureController.new .block)
        [.error (.runtime "boom")]).events = [] ∧
    (pipelineExecute (T := Nat) .noRetry [] (fun _ => .ok ())
        (BackpressureController.new .block)
        [.error (.runtime "boom")]).outcome = .err (.runtime "boom") := by
  constructor <;> decide

/-! ## C9 — window-any stickiness -/

theorem processWindow_append {T : Type} (p : T → Bool)
    (l : List (Record T)) (r : Record T) :
    ∃ out, WindowAnyOperator.processWindow p (l ++ [r]) = some out ∧
      out.data = (l ++ [r]).any (fun rec => p rec.data) := by
  cases l with
  | nil => exact ⟨_, rfl, rfl⟩
  | cons a l => exact ⟨_, rfl, rfl⟩

theorem getAffectedWindows_nodup (wt : WindowType) (ts : Int) :
    (wt.getAffectedWindows ts).Nodup := by
  cases wt with
  | tumbling size => exact List.nodup_singleton _
  | session gap => exact List.nodup_singleton _
  | global => exact List.nodup_singleton _
  | sliding size slide =>
    refine List.Nodup.filter _ ?_
    unfold stepBy
    split
    · next hcond =>
      refine (List.nodup_range _).map ?_
      intro i j hij
      dsimp only at hij
      have hmul : slide * i = slide * j := by exact_mod_cast add_left_cancel hij
      exact Nat.eq_of_mul_eq_mul_left hcond.1 hmul
    · exact List.nodup_nil

theorem processPairs_eq {T : Type} (p : T → Bool) (cfg : WindowConfig)
    (B : Int → List (Record T)) (r : Record T) :
    WindowAnyOperator.processPairs p cfg B r =
      (anyFoldBuf r B (cfg.window_type.getAffectedWindows r.timestamp),
       anyFoldOuts p r B (cfg.window_type.getAffectedWindows r.timestamp)) := by
  have key : ∀ (ks : List Int) (B : Int → List (Record T))
      (acc : List (Int × Record Bool)),
      ks.foldl (fun acc key =>
        let records := acc.1 key ++ [r]
        let buf := fun q => if q = key then records else acc.1 q
        match WindowAnyOperator.processWindow p records with
        | none => (buf, acc.2)
        | some result => (buf, acc.2 ++ [(key, result)])) (B, acc) =
      (anyFoldBuf r B ks, acc ++ anyFoldOuts p r B ks) := by
    intro ks
    induction ks with
    | nil => intro B acc; simp [anyFoldBuf, anyFoldOuts]
    | cons k ks ih =>
      intro B acc
      simp only [List.foldl_cons, anyFoldBuf, anyFoldOuts]
      cases hw : WindowAnyOperator.processWindow p (B k ++ [r]) with
      | none => simp only [hw]; rw [ih]; rfl
      | some out =>
        simp only [hw]
        rw [ih]
        have hassoc : ∀ X : List (Int × Record Bool),
            (acc ++ [(k, out)]) ++ X = acc ++ ((k, out) :: X) := by simp
        exact congrArg₂ Prod.mk rfl
          (hassoc (anyFoldOuts p r (anyStepBuf r B k) ks))
  unfold WindowAnyOperator.processPairs
  simpa using key _ B []

theorem anyFoldBuf_not_mem {T : Type} (r : Record T) (w : Int)
    (ks : List Int) (B : Int → List (Record T)) (h : w ∉ ks) :
    anyFoldBuf r B ks w = B w := by
  induction ks generalizing B with
  | nil => rfl
  | cons k ks ih =>
    simp only [List.mem_cons, not_or] at h
    rw [anyFoldBuf, ih _ h.2]
    simp [anyStepBuf, h.1]

theorem anyFoldBuf_mem {T : Type} (r : Record T) (w : Int)
    (ks : List Int) (B : Int → List (Record T)) (hnd : ks.Nodup)
    (h : w ∈ ks) : anyFoldBuf r B ks w = B w ++ [r] := by
  induction ks generalizing B with
  | nil => simp at h
  | cons k ks ih =>
    rcases List.mem_cons.mp h with hk | hk
    · subst hk
      rw [anyFoldBuf, anyFoldBuf_not_mem r w ks _ (List.Nodup.not_mem hnd)]
      simp [anyStepBuf]
    · rw [anyFoldBuf, ih _ (hnd.of_cons) hk]
      have hne : w ≠ k := by
        rintro rfl
        exact (List.Nodup.not_mem hnd) hk
      simp [anyStepBuf, hne]

theorem anyFoldOuts_filterMap {T : Type} (p : T → Bool) (r : Record T)
    (w : Int) (ks : List Int) (B : Int → List (Record T))
    (hnd : ks.Nodup) :
    (anyFoldOuts p r B ks).filterMap
        (fun kv => if kv.1 = w then some kv.2.data else none) =
      if w ∈ ks then [(B w ++ [r]).any (fun rec => p rec.data)] else [] := by
  induction ks generalizing B with
  | nil => simp [anyFoldOuts]
  | cons k ks ih =>
    obtain ⟨out, hout, hdata⟩ := processWindow_append p (B k) r
    rw [anyFoldOuts, hout]
    rw [List.filterMap_cons]
    by_cases hkw : k = w
    · subst hkw
      simp only [if_pos rfl]
      rw [ih _ hnd.of_cons, if_neg (List.Nodup.not_mem hnd), hdata]
      simp
    · simp only [if_neg hkw]
      rw [ih _ hnd.of_cons]
      have hbw : anyStepBuf r B k w = B w := by simp [anyStepBuf, Ne.symm hkw]
      rw [hbw]
      simp only [List.mem_cons]
      have hwk : ¬ w = k := fun h => hkw h.symm
      rw [if_congr (or_iff_right hwk) rfl rfl]

theorem run_filterMap_eq {T : Type} (p : T → Bool) (cfg : WindowConfig)
    (rs : List (Record T)) (B : Int → List (Record T)) (w : Int) :
    (WindowAnyOperator.run p cfg B rs).filterMap
        (fun kv => if kv.1 = w then some kv.2.data else none) =
      anyPrefixOuts p (B w)
        (rs.filter
          (fun r => decide (w ∈ cfg.window_type.getAffectedWindows r.timestamp))) := by
  induction rs generalizing B with
  | nil => rfl
  | cons r rs ih =>
    rw [WindowAnyOperator.run, processPairs_eq]
    simp only [List.filterMap_append]
    rw [anyFoldOuts_filterMap p r w _ B
      (getAffectedWindows_nodup cfg.window_type r.timestamp)]
    rw [ih]
    by_cases hm : w ∈ cfg.window_type.getAffectedWindows r.timestamp
    · rw [if_pos hm,
        anyFoldBuf_mem r w _ B
          (getAffectedWindows_nodup cfg.window_type r.timestamp) hm,
        List.filter_cons_of_pos (by simpa using hm)]
      rfl
    · rw [if_neg hm, anyFoldBuf_not_mem r w _ B hm,
        List.filter_cons_of_neg (by simpa using hm)]
      simp

theorem anyPrefixOuts_cons {T : Type} (p : T → Bool)
    (base : List (Record T)) (r : Record T) (rest : List (Record T)) :
    anyPrefixOuts p base (r :: rest) =
      ((base ++ [r]).any (fun rec => p rec.data))
        :: anyPrefixOuts p (base ++ [r]) rest := rfl

theorem anyPrefixOuts_all_true {T : Type} (p : T → Bool)
    (rel : List (Record T)) (base : List (Record T))
    (h : base.any (fun rec => p rec.data) = true) :
    ∀ b ∈ anyPrefixOuts p base rel, b = true := by
  induction rel generalizing base with
  | nil => intro b hb; simp [anyPrefixOuts] at hb
  | cons r rel ih =>
    intro b hb
    have hbase : (base ++ [r]).any (fun rec => p rec.data) = true := by
      simp [List.any_append, h]
    rcases List.mem_cons.mp hb with rfl | hb
    · exact hbase
    · exact ih (base ++ [r]) hbase b hb

theorem anyPrefixOuts_sticky {T : Type} (p : T → Bool)
    (rel : List (Record T)) (base : List (Record T)) (i j : Nat)
    (hij : i ≤ j) (hj : j < (anyPrefixOuts p base rel).length)
    (hi : (anyPrefixOuts p base rel).getD i false = true) :
    (anyPrefixOuts p base rel).getD j false = true := by
  induction rel generalizing base i j with
  | nil => simp [anyPrefixOuts] at hj
  | cons r rel ih =>
    rw [anyPrefixOuts] at hj hi ⊢
    cases i with
    | zero =>
      have hhead : (base ++ [r]).any (fun rec => p rec.data) = true := by
        simpa using hi
      cases j with
      | zero => simpa using hhead
      | succ j =>
        simp only [List.getD_cons_succ]
        have hmem : (anyPrefixOuts p (base ++ [r]) rel).getD j false
            ∈ anyPrefixOuts p (base ++ [r]) rel := by
          have hjlen : j < (anyPrefixOuts p (base ++ [r]) rel).length := by
            simpa using hj
          rw [List.getD_eq_getElem _ _ hjlen]
          exact List.getElem_mem _
        exact anyPrefixOuts_all_true p rel (base ++ [r]) hhead _ hmem
    | succ i =>
      cases j with
      | zero => omega
      | succ j =>
        simp only [List.getD_cons_succ] at hi ⊢
        exact ih (base ++ [r]) i j (by omega) (by simpa using hj) hi

theorem filter_head?_eq_find? {α : Type} (q : α → Bool) (l : List α) :
    (l.filter q).head? = l.find? q := by
  induction l with
  | nil => rfl
  | cons a l ih =>
    by_cases hq : q a = true
    · simp [List.filter_cons, List.find?_cons, hq]
    · simp only [List.filter_cons, List.find?_cons]
      rw [if_neg (by simpa using hq)]
      simp only [Bool.not_eq_true] at hq
      rw [hq]
      exact ih

/-- **C9**: for any window key `w` and predicate `p`, the sequence of
outputs the window-any operator emits for `w` is sticky-true — once an
output is `true`, every later output for the same window is `true` — and
the first output for a window equals `p` applied to the first record
landing in that window (so it is `false` unless that record satisfies
`p`). -/
theorem windowAny_sticky {T : Type} (p : T → Bool) (cfg : WindowConfig)
    (rs : List (Record T)) (w : Int) :
    (∀ i j, i ≤ j → j < (WindowAnyOperator.outputsFor p cfg rs w).length →
      (WindowAnyOperator.outputsFor p cfg rs w).getD i false = true →
      (WindowAnyOperator.outputsFor p cfg rs w).getD j false = true) ∧
    (∀ r0, rs.find?
        (fun r => decide (w ∈ cfg.window_type.getAffectedWindows r.timestamp))
          = some r0 →
      (WindowAnyOperator.outputsFor p cfg rs w).head? = some (p r0.data)) := by
  have hchar : WindowAnyOperator.outputsFor p cfg rs w =
      anyPrefixOuts p []
        (rs.filter
          (fun r =>
            decide (w ∈ cfg.window_type.getAffectedWindows r.timestamp))) := by
    unfold WindowAnyOperator.outputsFor
    exact run_filterMap_eq p cfg rs (fun _ => []) w
  constructor
  · intro i j hij hj hi
    rw [hchar] at hi hj ⊢
    exact anyPrefixOuts_sticky p _ [] i j hij hj hi
  · intro r0 hfind
    rw [hchar]
    have hhead : (rs.filter
        (fun r =>
          decide (w ∈ cfg.window_type.getAffectedWindows r.timestamp))).head?
        = some r0 := by
      rw [filter_head?_eq_find?]
      exact hfind
    cases hf : rs.filter
        (fun r =>
          decide (w ∈ cfg.window_type.getAffectedWindows r.timestamp)) with
    | nil => rw [hf] at hhead; simp at hhead
    | cons a rel =>
      rw [hf] at hhead
      simp only [List.head?_cons, Option.some.injEq] at hhead
      subst hhead
      rw [anyPrefixOuts_cons]
      simp

/-- Witness for C9: `any(even)` over a global window on `[1, 2, 3]` emits
`[false, true, true]`; stickiness and the first-output law at concrete
indices. -/
theorem windowAny_sticky_witness :
    (WindowAnyOperator.outputsFor (fun v => v % 2 == 0) ⟨.global, 0, 0⟩
      ([1, 2, 3].map (fun v => (⟨v, 0⟩ : Record Nat))) 0).getD 2 false
        = true ∧
    (WindowAnyOperator.outputsFor (fun v => v % 2 == 0) ⟨.global, 0, 0⟩
      ([1, 2, 3].map (fun v => (⟨v, 0⟩ : Record Nat))) 0).head?
        = some false := by
  constructor
  · exact (windowAny_sticky (fun v => v % 2 == 0) ⟨.global, 0, 0⟩
      ([1, 2, 3].map (fun v => (⟨v, 0⟩ : Record Nat))) 0).1 1 2
      (by decide) (by decide) (by decide)
  · have h := (windowAny_sticky (fun v => v % 2 == 0) ⟨.global, 0, 0⟩
      ([1, 2, 3].map (fun v => (⟨v, 0⟩ : Record Nat))) 0).2 ⟨1, 0⟩ (by decide)
    simpa using h

/-! ## C8 — top_k correctness -/

theorem sortAsc_append_singleton {T : Type} [LinearOrder T]
    (l : List T) (v : T) :
    (l ++ [v]).insertionSort (· ≤ ·) =
      List.orderedInsert (· ≤ ·) v (l.insertionSort (· ≤ ·)) := by
  refine List.eq_of_perm_of_sorted ?_ (List.sorted_insertionSort _ _)
    (List.Sorted.orderedInsert _ _ (List.sorted_insertionSort _ _))
  refine (List.perm_insertionSort _ _).trans ?_
  refine (List.perm_append_singleton v l).trans ?_
  refine (((List.perm_insertionSort (· ≤ ·) l).symm).cons v).trans ?_
  exact (List.perm_orderedInsert (· ≤ ·) v (l.insertionSort (· ≤ ·))).symm

theorem orderedInsert_drop_tail {T : Type} [LinearOrder T] (v : T) :
    ∀ (d : Nat) (S : List T), S.Sorted (· ≤ ·) → d ≤ S.length →
    (List.orderedInsert (· ≤ ·) v (S.drop d)).tail =
      (List.orderedInsert (· ≤ ·) v S).drop (d + 1) := by
  intro d
  induction d with
  | zero =>
    intro S _ _
    simp [List.drop_one]
  | succ d ih =>
    intro S hs hd
    cases S with
    | nil => simp at hd
    | cons a S1 =>
      rw [List.drop_succ_cons]
      by_cases hva : v ≤ a
      · rw [show List.orderedInsert (· ≤ ·) v (a :: S1)
            = v :: a :: S1 from by simp [List.orderedInsert, hva]]
        rw [List.drop_succ_cons, List.drop_succ_cons]
        cases hS : S1.drop d with
        | nil => simp [List.orderedInsert]
        | cons b rest =>
          have hb : b ∈ S1 :=
            List.mem_of_mem_drop (by rw [hS]; exact List.mem_cons_self _ _)
          have hab : a ≤ b := (List.sorted_cons.mp hs).1 b hb
          simp [List.orderedInsert, le_trans hva hab]
      · rw [show List.orderedInsert (· ≤ ·) v (a :: S1)
            = a :: List.orderedInsert (· ≤ ·) v S1 from by
              simp [List.orderedInsert, hva]]
        rw [List.drop_succ_cons]
        exact ih S1 (List.sorted_cons.mp hs).2 (by simpa using hd)

theorem topKFold_kLargest {T : Type} [LinearOrder T] (k : Nat) (l : List T)
    (v : T) :
    topKFold k (kLargestAsc k l) v = kLargestAsc k (l ++ [v]) := by
  unfold topKFold kLargestAsc
  rw [sortAsc_append_singleton]
  have hSlen : (l.insertionSort (· ≤ ·)).length = l.length :=
    (List.perm_insertionSort _ l).length_eq
  have hSsorted : (l.insertionSort (· ≤ ·)).Sorted (· ≤ ·) :=
    List.sorted_insertionSort _ _
  rw [show (l ++ [v]).length = l.length + 1 by simp]
  by_cases hk : l.length < k
  · rw [Nat.sub_eq_zero_of_le (by omega), Nat.sub_eq_zero_of_le (by omega),
      List.drop_zero, List.drop_zero]
    rw [if_neg (by rw [List.orderedInsert_length]; omega)]
  · push_neg at hk
    have hdlen : ((l.insertionSort (· ≤ ·)).drop (l.length - k)).length = k := by
      rw [List.length_drop, hSlen]; omega
    rw [if_pos (by rw [List.orderedInsert_length, hdlen]; omega)]
    rw [orderedInsert_drop_tail v (l.length - k) _ hSsorted (by omega)]
    congr 1
    omega

theorem topKProject_kLargest {T : Type} [LinearOrder T] (k : Nat)
    (l : List T) :
    topKProject (kLargestAsc k l) = (sortDesc l).take k := by
  unfold topKProject kLargestAsc sortDesc
  rw [List.reverse_drop]
  have hrev : (l.insertionSort (· ≤ ·)).reverse
      = l.insertionSort (fun a b => b ≤ a) := by
    refine List.eq_of_perm_of_sorted ?_ ?_ (List.sorted_insertionSort _ _)
    · exact ((List.reverse_perm _).trans
        (List.perm_insertionSort _ _)).trans
        (List.perm_insertionSort _ _).symm
    · rw [List.Sorted, List.pairwise_reverse]
      exact List.sorted_insertionSort _ _
  rw [hrev]
  apply List.take_eq_take.mpr
  have hlen : (l.insertionSort (fun a b => b ≤ a)).length = l.length :=
    (List.perm_insertionSort _ l).length_eq
  rw [hlen, (List.perm_insertionSort (· ≤ ·) l).length_eq]
  omega

theorem topKStatesFrom_expected {T : Type} [LinearOrder T] (k : Nat)
    (xs : List (Record T)) (pre : List T) :
    (topKStatesFrom k (kLargestAsc k pre) xs).map Record.data
      = topKExpected k pre xs := by
  induction xs generalizing pre with
  | nil => rfl
  | cons r xs ih =>
    rw [topKStatesFrom, topKExpected, List.map_cons]
    rw [topKFold_kLargest k pre r.data]
    rw [show (⟨topKProject (kLargestAsc k (pre ++ [r.data])), r.timestamp⟩
        : Record (List T)).data
      = topKProject (kLargestAsc k (pre ++ [r.data])) from rfl]
    rw [topKProject_kLargest]
    exact congrArg _ (ih (pre ++ [r.data]))

theorem topKExpected_range {T : Type} [LinearOrder T] (k : Nat)
    (xs : List (Record T)) (pre : List T) :
    topKExpected k pre xs =
      (List.range xs.length).map
        (fun i => (sortDesc (pre ++ ((xs.take (i + 1)).map Record.data))).take k) := by
  induction xs generalizing pre with
  | nil => rfl
  | cons r xs ih =>
    rw [topKExpected, ih (pre ++ [r.data]), List.length_cons,
      List.range_succ_eq_map, List.map_cons, List.map_map]
    congr 1
    refine List.map_congr_left ?_
    intro i _
    simp [List.take_succ_cons, List.append_assoc]

theorem writesOf_write_cons {T : Type} (r : Record T)
    (tr : List (SinkEvent T)) :
    writesOf (.write r :: tr) = r :: writesOf tr := rfl

theorem tswo_map_cons {T : Type} [LinearOrder T] (rec : Record (List T))
    (evs : List (StreamResult (Record (List T)))) :
    tswoEvents []
        (fun (u : Unit) r => (u, .ok [MapOperator.process topKProject r])) ()
        (.ok rec :: evs)
      = .ok ⟨topKProject rec.data, rec.timestamp⟩
          :: tswoEvents []
            (fun (u : Unit) r => (u, .ok [MapOperator.process topKProject r]))
            () evs := rfl

theorem sink_write_cons {R : Type} (rec : Record R)
    (evs : List (StreamResult (Record R))) :
    dataStreamSink [] (fun _ => .ok ()) (.ok rec :: evs)
      = ((dataStreamSink [] (fun _ => .ok ()) evs).1,
          .write rec :: (dataStreamSink [] (fun _ => .ok ()) evs).2) := rfl

theorem tswo_agg_cons {T : Type} [LinearOrder T] (k : Nat)
    (st : KeyedStateBackend Nat (List T)) (r : Record T)
    (evs : List (StreamResult (Record T))) :
    tswoEvents []
        (fun st r => Prod.map id Except.ok
          (WindowAggregator.process ⟨.global, 0, 0⟩ [] (topKFold k) st r))
        st (.ok r :: evs)
      = .ok ⟨topKFold k ((st.get 0).getD []) r.data, r.timestamp⟩
          :: tswoEvents []
            (fun st r => Prod.map id Except.ok
              (WindowAggregator.process ⟨.global, 0, 0⟩ [] (topKFold k) st r))
            (st.set 0 (topKFold k ((st.get 0).getD []) r.data))
            evs := rfl

theorem topKPipeline_eq {T : Type} [LinearOrder T] (k : Nat)
    (xs : List (Record T)) :
    topKPipeline k xs = topKStatesFrom k [] xs := by
  suffices h : ∀ (xs : List (Record T)) (st : KeyedStateBackend Nat (List T)),
      writesOf (dataStreamSink [] (fun _ => .ok ())
        (tswoEvents []
          (fun (u : Unit) r => (u, .ok [MapOperator.process topKProject r])) ()
          (tswoEvents []
            (fun st r => Prod.map id Except.ok
              (WindowAggregator.process ⟨.global, 0, 0⟩ [] (topKFold k) st r))
            st (xs.map .ok)))).2
      = topKStatesFrom k ((st.get 0).getD []) xs by
    exact h xs (KeyedStateBackend.new Nat (List T))
  intro xs
  induction xs with
  | nil => intro st; rfl
  | cons r xs ih =>
    intro st
    rw [List.map_cons, tswo_agg_cons, tswo_map_cons, sink_write_cons]
    rw [show ((⟨topKFold k ((st.get 0).getD []) r.data, r.timestamp⟩
        : Record (List T)).data)
      = topKFold k ((st.get 0).getD []) r.data from rfl]
    rw [writesOf_write_cons, topKStatesFrom]
    congr 1
    have hset : (((st.set 0 (topKFold k ((st.get 0).getD []) r.data)).get
        0).getD []) = topKFold k ((st.get 0).getD []) r.data := by
      simp [KeyedStateBackend.get, KeyedStateBackend.set]
    have := ih (st.set 0 (topKFold k ((st.get 0).getD []) r.data))
    rwa [hset] at this

/-- **C8**: for every finite input `xs` fed through
`window(Global).top_k(k)`, the `i`-th output is exactly the `k` largest
values among the first `i + 1` payloads of `xs` (all of them while
`i + 1 ≤ k`), sorted in descending order. -/
theorem topK_outputs {T : Type} [LinearOrder T] (k : Nat)
    (xs : List (Record T)) :
    (topKPipeline k xs).map Record.data =
      (List.range xs.length).map
        (fun i => (sortDesc ((xs.take (i + 1)).map Record.data)).take k) := by
  rw [topKPipeline_eq]
  have hnil : kLargestAsc (T := T) k [] = [] := by
    unfold kLargestAsc
    simp
  rw [← hnil, topKStatesFrom_expected, topKExpected_range]
  simp

/-! ## C2 — window keys -/

theorem cast_roundtrip (l : List Int)
    (h : ∀ w ∈ l, 0 ≤ w ∧ w < 2 ^ 64) :
    l.map (fun w => (((w % (2 ^ 64 : Int)).toNat : Int))) = l := by
  induction l with
  | nil => rfl
  | cons w l ih =>
    have hw := h w (List.mem_cons_self _ _)
    rw [List.map_cons, Int.emod_eq_of_lt hw.1 hw.2, Int.toNat_of_nonneg hw.1,
      ih (fun q hq => h q (List.mem_cons_of_mem _ hq))]

theorem getWindowKeys_cast (wt : WindowType) (ts : Int)
    (h : ∀ w ∈ wt.getCommonWindows ts, 0 ≤ w ∧ w < 2 ^ 64) :
    (wt.getWindowKeys ts).map Int.ofNat = wt.getCommonWindows ts := by
  unfold WindowType.getWindowKeys
  rw [List.map_map]
  exact cast_roundtrip _ h

theorem stepBy_eq (a c : Int) (s : Nat) (hs : 0 < s) (hc : 0 ≤ c) :
    stepBy a (a + c * s) s =
      (List.range (c.toNat + 1)).map (fun i => a + ((s * i : Nat) : Int)) := by
  unfold stepBy
  have hcs : (0 : Int) ≤ c * s := by positivity
  rw [if_pos ⟨hs, by omega⟩]
  obtain ⟨cn, rfl⟩ := Int.eq_ofNat_of_zero_le hc
  have h1 : a + (cn : Int) * s - a = ((cn * s : Nat) : Int) := by push_cast; ring
  rw [h1, Int.toNat_natCast, Nat.mul_div_cancel cn hs, Int.toNat_natCast]

theorem range_succ_map_int (g : Nat → Int) (N : Nat) :
    (List.range (N + 1)).map g = g 0 :: (List.range N).map (fun i => g (i + 1)) := by
  rw [List.range_succ_eq_map, List.map_cons, List.map_map]
  rfl

theorem sliding_common_eq (size slide : Nat) (ts : Int) (hslide : 0 < slide)
    (hsize : 0 < size) (h0 : 0 ≤ ts) (hSL : (size : Int) - slide ≤ ts) :
    WindowType.getCommonWindows (.sliding size slide) ts
      = specSlidingKeys size slide ts := by
  have hL : (0 : Int) < slide := by exact_mod_cast hslide
  have hLne : (slide : Int) ≠ 0 := ne_of_gt hL
  have hS : (0 : Int) < size := by exact_mod_cast hsize
  have hfd : Int.fdiv (ts - size) slide = (ts - size) / slide :=
    Int.fdiv_eq_ediv _ (le_of_lt hL)
  have hfdt : Int.fdiv ts slide = ts / slide := Int.fdiv_eq_ediv _ (le_of_lt hL)
  have htd : Int.tdiv ts slide = ts / slide := Int.tdiv_eq_ediv h0 (le_of_lt hL)
  -- the truncating division of ts - size equals the floor division, or
  -- sits one above it (only for a negative non-multiple)
  have hsplit : (Int.tdiv (ts - size) slide = (ts - size) / slide ∧
        (ts - size) / slide * slide ≤ ts - size) ∨
      (Int.tdiv (ts - size) slide = (ts - size) / slide + 1 ∧
        ts - size < ((ts - size) / slide + 1) * slide) := by
    by_cases hxn : 0 ≤ ts - size
    · left
      exact ⟨Int.tdiv_eq_ediv hxn (le_of_lt hL), Int.ediv_mul_le _ hLne⟩
    · push_neg at hxn
      by_cases hdvd : (slide : Int) ∣ (ts - size)
      · left
        obtain ⟨c, hc⟩ := hdvd
        constructor
        · rw [hc, Int.mul_tdiv_cancel_left _ hLne, Int.mul_ediv_cancel_left _ hLne]
        · rw [hc, Int.mul_ediv_cancel_left _ hLne]
          exact le_of_eq (mul_comm c slide)
      · have hxL : -(slide : Int) < ts - size := by
          rcases lt_or_eq_of_le (show -(slide : Int) ≤ ts - size by omega)
            with h | h
          · exact h
          · exact absurd ⟨-1, by rw [← h]; ring⟩ hdvd
        have htneg : Int.tdiv (ts - size) slide = 0 := by
          have hrw : ts - (size : Int) = -((size : Int) - ts) := by ring
          rw [hrw, Int.neg_tdiv,
            Int.tdiv_eq_ediv (by omega) (le_of_lt hL),
            Int.ediv_eq_zero_of_lt (by omega) (by omega)]
          rfl
        have hedivneg : (ts - size) / slide = -1 := by
          have hlt : (ts - size) / slide < 0 := Int.ediv_neg' hxn hL
          have hnegone : -(slide : Int) / slide = -1 := by
            rw [show -(slide : Int) = (slide : Int) * (-1) by ring,
              Int.mul_ediv_cancel_left _ hLne]
          have hmono : -(slide : Int) / slide ≤ (ts - size) / slide :=
            Int.ediv_le_ediv hL (by omega)
          omega
        right
        rw [htneg, hedivneg]
        exact ⟨by ring, by simpa using hxn⟩
  -- bounds used throughout
  have hkmax_nonneg : 0 ≤ ts / slide := Int.ediv_nonneg h0 (le_of_lt hL)
  have hkmin_lb : -1 ≤ (ts - size) / slide := by
    have hnegone : -(slide : Int) / slide = -1 := by
      rw [show -(slide : Int) = (slide : Int) * (-1) by ring,
        Int.mul_ediv_cancel_left _ hLne]
    have hmono : -(slide : Int) / slide ≤ (ts - size) / slide :=
      Int.ediv_le_ediv hL (by omega)
    omega
  have hkk : (ts - size) / slide ≤ ts / slide :=
    Int.ediv_le_ediv hL (by omega)
  have hpass : ∀ j : Int, (ts - size) / slide + 1 ≤ j →
      ts - j * slide < size := by
    intro j hj
    have h1 : ts - size < ((ts - size) / slide + 1) * slide :=
      Int.lt_ediv_add_one_mul_self _ hL
    have h2 : ((ts - size) / slide + 1) * slide ≤ j * slide :=
      mul_le_mul_of_nonneg_right hj (le_of_lt hL)
    omega
  simp only [WindowType.getCommonWindows, specSlidingKeys]
  rw [hfd, hfdt, htd]
  rcases hsplit with ⟨heq, hle⟩ | ⟨heq, hlt⟩
  · -- truncation = floor: the first range element is ≤ ts - size and is
    -- filtered out; the rest are exactly the spec keys
    rw [heq]
    have hc : (0 : Int) ≤ ts / slide - (ts - size) / slide := by omega
    rw [show ts / (slide : Int) * slide =
        (ts - size) / slide * slide +
          (ts / slide - (ts - size) / slide) * slide by ring]
    rw [stepBy_eq _ _ _ hslide hc, range_succ_map_int]
    rw [List.filter_cons_of_neg (by
      simp only [decide_eq_true_eq, not_lt]
      push_cast
      omega)]
    rw [List.filter_eq_self.mpr ?allpass]
    case allpass =>
      intro w hw
      simp only [List.mem_map, List.mem_range] at hw
      obtain ⟨i, _, rfl⟩ := hw
      simp only [decide_eq_true_eq]
      have hp := hpass ((ts - size) / slide + 1 + i) (by omega)
      have hgoal : ts - ((ts - (size : Int)) / slide * slide
            + ((slide * (i + 1) : Nat) : Int))
          = ts - ((ts - size) / slide + 1 + (i : Int)) * slide := by
        push_cast
        ring
      rw [hgoal]
      exact hp
    rw [show (ts / (slide : Int) - (ts - size) / slide).toNat =
        (ts / slide - ((ts - size) / slide + 1) + 1).toNat by omega]
    refine List.map_congr_left ?_
    intro i _
    push_cast
    ring
  · -- truncation = floor + 1: nothing is filtered out
    rw [heq]
    have hfloor_neg : (ts - size) / slide = -1 := by
      -- in this branch ts - size is a negative non-multiple of slide
      by_contra hne
      have h1 : ts - size < ((ts - size) / slide + 1) * slide := hlt
      by_cases hxn : 0 ≤ ts - size
      · have := Int.tdiv_eq_ediv hxn (le_of_lt hL)
        omega
      · push_neg at hxn
        have hlt0 : (ts - size) / slide < 0 := Int.ediv_neg' hxn hL
        omega
    have hc : (0 : Int) ≤ ts / slide - ((ts - size) / slide + 1) := by omega
    rw [show ts / (slide : Int) * slide =
        ((ts - size) / slide + 1) * slide +
          (ts / slide - ((ts - size) / slide + 1)) * slide by ring]
    rw [stepBy_eq _ _ _ hslide hc]
    rw [List.filter_eq_self.mpr ?allpass2]
    case allpass2 =>
      intro w hw
      simp only [List.mem_map, List.mem_range] at hw
      obtain ⟨i, _, rfl⟩ := hw
      simp only [decide_eq_true_eq]
      have hp := hpass ((ts - size) / slide + 1 + i) (by omega)
      have hgoal : ts - (((ts - (size : Int)) / slide + 1) * slide
            + ((slide * i : Nat) : Int))
          = ts - ((ts - size) / slide + 1 + (i : Int)) * slide := by
        push_cast
        ring
      rw [hgoal]
      exact hp
    rw [show (ts / (slide : Int) - ((ts - size) / slide + 1) + 1).toNat =
        (ts / slide - ((ts - size) / slide + 1)).toNat + 1 by omega]
    refine List.map_congr_left ?_
    intro i _
    push_cast
    ring

/-- **C2** (amended): for every timestamp `ts` in `[0, 2^63)` (the
nonnegative `i64` range), `get_window_keys` returns the spec values:
Tumbling with `0 < size` gives `[floor(ts/size)*size]`; Session with
`0 < gap` gives `[floor(ts/gap)]`; Global gives `[0]`; Sliding with
`0 < slide`, `0 < size` and `size - slide ≤ ts` gives exactly the
ascending multiples `w` of `slide` with `ts - size < w ≤ ts`. (For
`ts < size - slide` the claim fails: the negative window starts are
emitted wrapped modulo `2 ^ 64` — see the counterexample.) -/
theorem getWindowKeys_spec (size slide gap : Nat) (ts : Int)
    (h0 : 0 ≤ ts) (hts : ts < 2 ^ 63) :
    (0 < size →
      (WindowType.getWindowKeys (.tumbling size) ts).map Int.ofNat
        = specTumblingKeys size ts) ∧
    (0 < gap →
      (WindowType.getWindowKeys (.session gap) ts).map Int.ofNat
        = specSessionKeys gap ts) ∧
    ((WindowType.getWindowKeys .global ts).map Int.ofNat = specGlobalKeys) ∧
    (0 < slide → 0 < size → (size : Int) - slide ≤ ts →
      (WindowType.getWindowKeys (.sliding size slide) ts).map Int.ofNat
        = specSlidingKeys size slide ts) := by
  refine ⟨?_, ?_, ?_, ?_⟩
  · intro hsize
    have hS : (0 : Int) < size := by exact_mod_cast hsize
    have hb : ∀ w ∈ (WindowType.tumbling size).getCommonWindows ts,
        0 ≤ w ∧ w < 2 ^ 64 := by
      intro w hw
      simp only [WindowType.getCommonWindows, List.mem_singleton] at hw
      subst hw
      rw [Int.tdiv_eq_ediv h0 (le_of_lt hS)]
      refine ⟨mul_nonneg (Int.ediv_nonneg h0 (le_of_lt hS)) (le_of_lt hS), ?_⟩
      have h1 : ts / (size : Int) * size ≤ ts := Int.ediv_mul_le _ (ne_of_gt hS)
      omega
    rw [getWindowKeys_cast _ _ hb]
    simp only [WindowType.getCommonWindows, specTumblingKeys]
    rw [Int.tdiv_eq_ediv h0 (le_of_lt hS), Int.fdiv_eq_ediv _ (le_of_lt hS)]
  · intro hgap
    have hG : (0 : Int) < gap := by exact_mod_cast hgap
    have hb : ∀ w ∈ (WindowType.session gap).getCommonWindows ts,
        0 ≤ w ∧ w < 2 ^ 64 := by
      intro w hw
      simp only [WindowType.getCommonWindows, List.mem_singleton] at hw
      subst hw
      rw [Int.tdiv_eq_ediv h0 (le_of_lt hG)]
      refine ⟨Int.ediv_nonneg h0 (le_of_lt hG), ?_⟩
      have h1 : ts / (gap : Int) ≤ ts := Int.ediv_le_self _ h0
      omega
    rw [getWindowKeys_cast _ _ hb]
    simp only [WindowType.getCommonWindows, specSessionKeys]
    rw [Int.tdiv_eq_ediv h0 (le_of_lt hG), Int.fdiv_eq_ediv _ (le_of_lt hG)]
  · rfl
  · intro hslide hsize hSL
    have hL : (0 : Int) < slide := by exact_mod_cast hslide
    have hb : ∀ w ∈ (WindowType.sliding size slide).getCommonWindows ts,
        0 ≤ w ∧ w < 2 ^ 64 := by
      rw [sliding_common_eq size slide ts hslide hsize h0 hSL]
      intro w hw
      simp only [specSlidingKeys, List.mem_map, List.mem_range] at hw
      obtain ⟨i, hi, rfl⟩ := hw
      have hnegone : -(slide : Int) / slide = -1 := by
        rw [show -(slide : Int) = (slide : Int) * (-1) by ring,
          Int.mul_ediv_cancel_left _ (ne_of_gt hL)]
      have hkmin0 : 0 ≤ Int.fdiv (ts - size) slide + 1 := by
        rw [Int.fdiv_eq_ediv _ (le_of_lt hL)]
        have hmono : -(slide : Int) / slide ≤ (ts - size) / slide :=
          Int.ediv_le_ediv hL (by omega)
        omega
      rw [Int.fdiv_eq_ediv _ (le_of_lt hL),
        Int.fdiv_eq_ediv _ (le_of_lt hL)] at hi
      have hikmax : Int.fdiv (ts - size) slide + 1 + (i : Int)
          ≤ Int.fdiv ts slide := by
        rw [Int.fdiv_eq_ediv _ (le_of_lt hL), Int.fdiv_eq_ediv _ (le_of_lt hL)]
        omega
      constructor
      · exact mul_nonneg (by omega) (le_of_lt hL)
      · have h1 : (Int.fdiv (ts - size) slide + 1 + (i : Int)) * slide
            ≤ Int.fdiv ts slide * slide :=
          mul_le_mul_of_nonneg_right hikmax (le_of_lt hL)
        have h2 : Int.fdiv ts slide * slide ≤ ts := by
          rw [Int.fdiv_eq_ediv _ (le_of_lt hL)]
          exact Int.ediv_mul_le _ (ne_of_gt hL)
        omega
    rw [getWindowKeys_cast _ _ hb,
      sliding_common_eq size slide ts hslide hsize h0 hSL]

/-- **C2** (counterexample): for `Sliding(size = 10 ms, slide = 3 ms)` at
`ts = 5`, the claimed key set is the ascending multiples of 3 in
`(-5, 5]`, i.e. `[-3, 0, 3]`, but the code casts the negative window
start `-3` to `u64` and returns `[2^64 - 3, 0, 3]`: neither the claimed
values nor ascending. -/
theorem getWindowKeys_sliding_counterexample :
    specSlidingKeys 10 3 5 = [-3, 0, 3] ∧
    WindowType.getWindowKeys (.sliding 10 3) 5 = [2 ^ 64 - 3, 0, 3] ∧
    (WindowType.getWindowKeys (.sliding 10 3) 5).map Int.ofNat
      ≠ specSlidingKeys 10 3 5 := by
  refine ⟨by decide, by decide, by decide⟩

/-- Witness for C2 at `ts = 10`: tumbling 10 gives `[10]`, session 4
gives `[2]`, global gives `[0]`, sliding (10, 3) gives `[3, 6, 9]`. -/
theorem getWindowKeys_spec_witness :
    (WindowType.getWindowKeys (.tumbling 10) 10).map Int.ofNat
        = specTumblingKeys 10 10 ∧
    (WindowType.getWindowKeys (.session 4) 10).map Int.ofNat
        = specSessionKeys 4 10 ∧
    (WindowType.getWindowKeys .global 10).map Int.ofNat = specGlobalKeys ∧
    (WindowType.getWindowKeys (.sliding 10 3) 10).map Int.ofNat
        = specSlidingKeys 10 3 10 :=
  ⟨(getWindowKeys_spec 10 3 4 10 (by decide) (by decide)).1 (by decide),
   (getWindowKeys_spec 10 3 4 10 (by decide) (by decide)).2.1 (by decide),
   (getWindowKeys_spec 10 3 4 10 (by decide) (by decide)).2.2.1,
   (getWindowKeys_spec 10 3 4 10 (by decide) (by decide)).2.2.2 (by decide)
     (by decide) (by decide)⟩

end Fluxus
